import Mathlib

/-!
Verification of the skills-mcp indexing and search subsystem
(`src/rust/skills-mcp/src/index/indexer.rs` and `src/rust/skills-mcp/src/api/routes.rs`)
against its natural-language specification.

The filesystem is modelled as an explicit value (`Corpus`): each candidate
skill directory records the state of its `_meta.json` file, the readability
of its regular files, and, when a `references` sub-directory exists, the
list of entries a recursive walk of that sub-directory yields.  Fallible
reads are three-valued (`absent` / `unreadable` / `ok content`), matching
the Rust code's separate `exists()` and `read_to_string` checks.
-/

/-! ### String order and prefix tests

Rust compares `String`s byte-lexicographically (`a.name.cmp(&b.name)`); since
UTF-8 byte order agrees with code-point order, this is lexicographic order on
the character sequences.  `starts_with('.')` inspects the first character. -/

/-- Lexicographic `≤` on character lists, modelling Rust's `str` ordering. -/
def lexLe : List Char → List Char → Bool
  | [], _ => true
  | _ :: _, [] => false
  | x :: xs, y :: ys => if x < y then true else if y < x then false else lexLe xs ys

/-- Byte/lexicographic `≤` on strings, modelling `a.cmp(&b) != Greater`. -/
def nameLe (a b : String) : Bool := lexLe a.data b.data

/-- Model of Rust `str::starts_with(c : char)`: the first character is `c`. -/
def startsWithChar (s : String) (c : Char) : Bool :=
  match s.data with
  | [] => false
  | x :: _ => x == c

/-! ### Data model (mirrors `models.rs`, reconstructed from the spec §3 and
the constructor calls visible in `indexer.rs` / `routes.rs`) -/

/-- Sub-skill descriptor: `name`, `file` (path relative to the skill
directory), `triggers`. -/
structure SubSkillMeta where
  name : String
  file : String
  triggers : List String
deriving DecidableEq

/-- One corpus entry's descriptor, parsed from `_meta.json`. -/
structure SkillMeta where
  name : String
  description : String
  tags : List String
  sub_skills : Option (List SubSkillMeta)
  source : Option String
deriving DecidableEq

/-- Metadata index: descriptors sorted by name plus non-fatal scan errors. -/
structure SkillIndex where
  skills : List SkillMeta
  errors : List String
deriving DecidableEq

/-- One indexed unit of text: owning skill, optional sub-skill, relative
file path, raw content. -/
structure ContentIndexEntry where
  skill_name : String
  sub_skill : Option String
  path : String
  content : String
deriving DecidableEq

/-- Content index: flat collection of entries, insertion order preserved. -/
structure ContentIndex where
  entries : List ContentIndexEntry
deriving DecidableEq

/-- Read-time projection of a skill's main document
(`SkillContent::new(..).with_sub_skills(..).with_references(..)`). -/
structure SkillContent where
  name : String
  content : String
  sub_skills : List String
  has_references : Bool
deriving DecidableEq

/-- Error taxonomy of `indexer.rs` (`enum IndexError`). -/
inductive IndexError where
  | NotFound (msg : String)
  | ReadError (msg : String)
  | ParseError (msg : String)
  | ValidationError (msg : String)
deriving DecidableEq

/-! ### Filesystem model -/

/-- Outcome of `path.exists()` followed by `fs::read_to_string(path)`. -/
inductive ReadResult where
  | absent
  | unreadable
  | ok (content : String)
deriving DecidableEq

/-- State of a directory's `_meta.json`: missing, unreadable (`ReadError`),
present but malformed (`ParseError`), or parsed into a descriptor. -/
inductive MetaFile where
  | absent
  | unreadable
  | unparsable
  | parsed (meta : SkillMeta)
deriving DecidableEq

/-- One entry yielded by the recursive `WalkDir` walk of a `references`
directory: its path relative to the skill directory, whether it is a regular
file, its extension (`""` when there is none), and the result of reading it
(`none` = read failure). -/
structure WalkEntry where
  relPath : String
  isFile : Bool
  ext : String
  content : Option String
deriving DecidableEq

/-- On-disk state of one sub-directory of the corpus root. -/
structure SkillDir where
  name : String
  metaFile : MetaFile
  files : List (String × ReadResult)
  refs : Option (List WalkEntry)
deriving DecidableEq

/-- One immediate child of the corpus root: a non-directory, or a directory. -/
inductive RootEntry where
  | file (name : String)
  | dir (d : SkillDir)
deriving DecidableEq

/-- The corpus root: missing (`exists()` false), unreadable (`read_dir`
fails), or readable with its list of children. -/
inductive Corpus where
  | absent
  | unreadable
  | ok (entries : List RootEntry)
deriving DecidableEq

/-- State of the file at `skills_dir/<d.name>/<rel>`. -/
def fileAt (d : SkillDir) (rel : String) : ReadResult :=
  match d.files.find? (fun p => p.1 == rel) with
  | some p => p.2
  | none => .absent

/-- Resolve `skills_dir/<name>` to a directory, as path joins do. -/
def findDir (entries : List RootEntry) (name : String) : Option SkillDir :=
  entries.findSome? (fun e =>
    match e with
    | .file _ => none
    | .dir d => if d.name == name then some d else none)

/-- State of the file at `skills_dir/<name>/<rel>`: absent when no directory
named `name` exists. -/
def pathState (entries : List RootEntry) (name rel : String) : ReadResult :=
  match findDir entries name with
  | some d => fileAt d rel
  | none => .absent

/-- Children of the corpus root (empty when the root is missing/unreadable). -/
def rootEntries : Corpus → List RootEntry
  | .ok entries => entries
  | _ => []

/-! ### Skill index builder (`SkillIndexer::build_skill_index`) -/

/-- Body of the per-entry loop in `build_skill_index`: skip non-directories
and names starting with `.` or `_`; a missing `_meta.json` appends one error
and skips; load failures append one error and skip; a parsed descriptor is
pushed, with any validation messages appended as per-field errors. -/
def scanStep (validate : SkillMeta → List String)
    (acc : List SkillMeta × List String) (e : RootEntry) :
    List SkillMeta × List String :=
  match e with
  | .file _ => acc
  | .dir d =>
    if startsWithChar d.name '.' || startsWithChar d.name '_' then acc
    else
      match d.metaFile with
      | .absent => (acc.1, acc.2 ++ [d.name ++ ": Missing _meta.json"])
      | .unreadable => (acc.1, acc.2 ++ [d.name ++ ": Read error: Failed to read _meta.json"])
      | .unparsable => (acc.1, acc.2 ++ [d.name ++ ": Parse error: Failed to parse _meta.json"])
      | .parsed m =>
          (acc.1 ++ [m], acc.2 ++ (validate m).map (fun err => d.name ++ ": " ++ err))

/-- The scan loop of `build_skill_index` over the root's children. -/
def scanEntries (validate : SkillMeta → List String) (entries : List RootEntry) :
    List SkillMeta × List String :=
  entries.foldl (scanStep validate) ([], [])

/-- `SkillIndexer::build_skill_index`: fail with `NotFound` when the root is
missing, `ReadError` when `read_dir` fails; otherwise scan all children and
sort the accumulated descriptors by name (`skills.sort_by`, a stable sort). -/
def build_skill_index (validate : SkillMeta → List String) :
    Corpus → Except IndexError SkillIndex
  | .absent => .error (.NotFound "Skills directory not found")
  | .unreadable => .error (.ReadError "Failed to read skills directory")
  | .ok entries =>
      let acc := scanEntries validate entries
      .ok ⟨acc.1.mergeSort (fun a b => nameLe a.name b.name), acc.2⟩

/-! ### Content index builder (`SkillIndexer::build_content_index`) -/

/-- `SkillIndexer::index_directory`: walk the entries under a `references`
directory; skip non-files and extensions other than `md`/`markdown`; a
successful read inserts one entry with no sub-skill and the relative path. -/
def index_directory (idx : List ContentIndexEntry) (domain : String)
    (ws : List WalkEntry) : List ContentIndexEntry :=
  ws.foldl (fun acc w =>
    if !w.isFile then acc
    else if w.ext != "md" && w.ext != "markdown" then acc
    else
      match w.content with
      | some c => acc ++ [⟨domain, none, w.relPath, c⟩]
      | none => acc) idx

/-- First block of the per-skill loop in `build_content_index`: index the
main `SKILL.md` when it exists and reads. -/
def indexMainStep (entries : List RootEntry) (acc : List ContentIndexEntry)
    (skill : SkillMeta) : List ContentIndexEntry :=
  match pathState entries skill.name "SKILL.md" with
  | .ok c => acc ++ [⟨skill.name, none, "SKILL.md", c⟩]
  | _ => acc

/-- Second block of the per-skill loop: index each declared sub-skill file
that exists and reads. -/
def indexSubsStep (entries : List RootEntry) (acc : List ContentIndexEntry)
    (skill : SkillMeta) : List ContentIndexEntry :=
  match skill.sub_skills with
  | some subs =>
      subs.foldl (fun a sub =>
        match pathState entries skill.name sub.file with
        | .ok c => a ++ [⟨skill.name, some sub.name, sub.file, c⟩]
        | _ => a) acc
  | none => acc

/-- Third block of the per-skill loop: index the `references` directory when
it is a directory. -/
def indexRefsStep (entries : List RootEntry) (acc : List ContentIndexEntry)
    (skill : SkillMeta) : List ContentIndexEntry :=
  match findDir entries skill.name with
  | some d =>
      match d.refs with
      | some ws => index_directory acc skill.name ws
      | none => acc
  | none => acc

/-- Body of the per-skill loop in `build_content_index`: the three blocks
applied in sequence to the running accumulator. -/
def indexSkillStep (entries : List RootEntry) (acc : List ContentIndexEntry)
    (skill : SkillMeta) : List ContentIndexEntry :=
  indexRefsStep entries (indexSubsStep entries (indexMainStep entries acc skill) skill) skill

/-- `SkillIndexer::build_content_index`: iterate the built metadata index in
order; every read failure is absorbed, so the result is always `Ok`. -/
def build_content_index (entries : List RootEntry) (skill_index : SkillIndex) :
    Except IndexError ContentIndex :=
  .ok ⟨skill_index.skills.foldl (indexSkillStep entries) []⟩

/-! ### Index store (`SkillIndexer` state and `reload`) -/

/-- The two index snapshots held by `SkillIndexer` (each behind its own
`RwLock` in the Rust code). -/
structure IndexerState where
  skill_index : SkillIndex
  content_index : ContentIndex
deriving DecidableEq

/-- `SkillIndexer::reload` as a sequential state transformer: build the new
skill index, then the new content index, and only then overwrite the stored
snapshots; any build error leaves the state untouched. -/
def reload (validate : SkillMeta → List String) (c : Corpus) (st : IndexerState) :
    Except IndexError Unit × IndexerState :=
  match build_skill_index validate c with
  | .error e => (.error e, st)
  | .ok si =>
      match build_content_index (rootEntries c) si with
      | .error e => (.error e, st)
      | .ok ci => (.ok (), ⟨si, ci⟩)

/-- `SkillIndex::find` (from `models.rs`, reconstructed from the spec's
"lookup by name"): first descriptor with the given name. -/
def SkillIndex.find (idx : SkillIndex) (name : String) : Option SkillMeta :=
  idx.skills.find? (fun m => m.name == name)

/-- `SkillIndexer::get_skill_meta`. -/
def get_skill_meta (st : IndexerState) (name : String) : Option SkillMeta :=
  st.skill_index.find name

/-- `SkillIndexer::has_references`: `skills_dir/<name>/references` is a
directory. -/
def has_references (entries : List RootEntry) (name : String) : Bool :=
  match findDir entries name with
  | some d => d.refs.isSome
  | none => false

/-- `SkillIndexer::read_skill_content`: resolve `skills_dir/<name>/SKILL.md`
by the given name; `NotFound` when absent, `ReadError` when unreadable;
sub-skill names come from the current metadata index. -/
def read_skill_content (entries : List RootEntry) (st : IndexerState)
    (name : String) : Except IndexError SkillContent :=
  match pathState entries name "SKILL.md" with
  | .absent => .error (.NotFound ("SKILL.md not found for " ++ name))
  | .unreadable => .error (.ReadError ("Failed to read SKILL.md for " ++ name))
  | .ok content =>
      let subs :=
        match (get_skill_meta st name).bind (fun m => m.sub_skills) with
        | some subs => subs.map (fun s => s.name)
        | none => []
      .ok ⟨name, content, subs, has_references entries name⟩

/-! ### Search option handling (`routes.rs::SearchQuery`, `search_skills`) -/

/-- Search options passed to the search engine. -/
structure SearchOptions where
  limit : Nat
deriving DecidableEq

/-- `routes.rs::default_limit`. -/
def default_limit : Nat := 10

/-- Modelled from the spec: `SearchOptions::with_limit` lives in `models.rs`,
which is not part of the available source; per the spec (§4.5) the limit
"must be ≥1" and "a limit of zero is rejected as an invalid option (treat as
the default rather than returning no results)". -/
def SearchOptions.with_limit (n : Nat) : SearchOptions :=
  ⟨if n = 0 then default_limit else n⟩

/-- `routes.rs::SearchQuery`: the query string and the caller's limit, which
may be absent (`#[serde(default = ...)]` then supplies `default_limit`). -/
structure SearchQuery where
  q : String
  limit : Option Nat
deriving DecidableEq

/-- Serde deserialization of the `limit` field: the default applies only when
the caller omitted it. -/
def parsedLimit (query : SearchQuery) : Nat :=
  query.limit.getD default_limit

/-- The options `search_skills` hands to the search engine:
`SearchOptions::with_limit(query.limit)`. -/
def search_options (query : SearchQuery) : SearchOptions :=
  SearchOptions.with_limit (parsedLimit query)

/-! ### Interleaving model of `reload`'s snapshot swap (indexer.rs:50-51)

`SkillIndexer` keeps the two indexes behind two separate `RwLock`s; `reload`
overwrites `skill_index` first, then `content_index`, each under its own
write lock.  A concurrent reader (`get_skill_index` / `get_content_index`)
takes each read lock separately.  Each of the four lock-protected accesses is
an atomic event; a schedule is an interleaving of these events. -/

/-- The four atomic lock-protected accesses: `reload`'s two writes and a
reader's two reads. -/
inductive RWEvent where
  | writeSkill
  | writeContent
  | readSkill
  | readContent
deriving DecidableEq

/-- What one concurrent reader has observed so far. -/
structure ReaderView where
  seenSkill : Option SkillIndex
  seenContent : Option ContentIndex
deriving DecidableEq

/-- Shared store plus the reader's observations. -/
structure RunState where
  store : IndexerState
  view : ReaderView
deriving DecidableEq

/-- Effect of one atomic event.  The writes install the freshly built
snapshots (`next`); the reads record the currently stored snapshot. -/
def stepEvent (next : IndexerState) (s : RunState) (e : RWEvent) : RunState :=
  match e with
  | .writeSkill => ⟨⟨next.skill_index, s.store.content_index⟩, s.view⟩
  | .writeContent => ⟨⟨s.store.skill_index, next.content_index⟩, s.view⟩
  | .readSkill => ⟨s.store, ⟨some s.store.skill_index, s.view.seenContent⟩⟩
  | .readContent => ⟨s.store, ⟨s.view.seenSkill, some s.store.content_index⟩⟩

/-- Execute a schedule from the previously published snapshot pair `old`. -/
def runSchedule (old next : IndexerState) (sched : List RWEvent) : RunState :=
  sched.foldl (stepEvent next) ⟨old, ⟨none, none⟩⟩

/-- A schedule of one completed reload racing one reader performing both
reads: each event occurs exactly once, and the skill-index write precedes the
content-index write (their program order inside `reload`). -/
def validSchedule (sched : List RWEvent) : Prop :=
  sched.Perm [.writeSkill, .writeContent, .readSkill, .readContent] ∧
  sched.indexOf RWEvent.writeSkill < sched.indexOf RWEvent.writeContent

instance : DecidablePred validSchedule := fun sched => by
  unfold validSchedule
  exact inferInstance

/-- A reader observation pairing one generation's metadata index with the
other generation's content index. -/
def MixedObservation (old next : IndexerState) (v : ReaderView) : Prop :=
  (v.seenSkill = some next.skill_index ∧ v.seenContent = some old.content_index) ∨
  (v.seenSkill = some old.skill_index ∧ v.seenContent = some next.content_index)

/-! ### Concrete fixtures used by witnesses and counterexamples -/

/-- A validator that accepts everything (validation is an external
collaborator; theorems quantify over it, fixtures instantiate it). -/
def noValidation : SkillMeta → List String := fun _ => []

/-- The freshly constructed store (`SkillIndexer::new`): two empty indexes. -/
def emptyState : IndexerState := ⟨⟨[], []⟩, ⟨[]⟩⟩

/-- A descriptor with only a name and description. -/
def mkMeta (n desc : String) : SkillMeta := ⟨n, desc, [], none, none⟩

unseal List.merge List.mergeSort

/-! ### Order lemmas for the name comparator -/

/-- `lexLe` is total. -/
theorem lexLe_total (a : List Char) : ∀ b, (lexLe a b || lexLe b a) = true := by
  induction a with
  | nil => intro b; simp [lexLe]
  | cons x xs ih =>
    intro b
    cases b with
    | nil => simp [lexLe]
    | cons y ys =>
      by_cases hxy : x < y
      · simp [lexLe, hxy]
      · by_cases hyx : y < x
        · simp [lexLe, hxy, hyx]
        · simp [lexLe, hxy, hyx, ih ys]

/-- `lexLe` is transitive. -/
theorem lexLe_trans : ∀ a b c : List Char,
    lexLe a b = true → lexLe b c = true → lexLe a c = true := by
  intro a
  induction a with
  | nil => intro b c _ _; simp [lexLe]
  | cons x xs ih =>
    intro b c hab hbc
    cases b with
    | nil => simp [lexLe] at hab
    | cons y ys =>
      cases c with
      | nil => simp [lexLe] at hbc
      | cons z zs =>
        by_cases hxy : x < y
        · by_cases hyz : y < z
          · simp [lexLe, lt_trans hxy hyz]
          · by_cases hzy : z < y
            · simp [lexLe, hyz, hzy] at hbc
            · have hyz' : y = z := le_antisymm (not_lt.mp hzy) (not_lt.mp hyz)
              subst hyz'
              simp [lexLe, hxy]
        · by_cases hyx : y < x
          · simp [lexLe, hxy, hyx] at hab
          · have hxy' : x = y := le_antisymm (not_lt.mp hyx) (not_lt.mp hxy)
            subst hxy'
            simp only [lexLe, lt_irrefl, if_neg (lt_irrefl x)] at hab hbc ⊢
            by_cases hxz : x < z
            · simp [hxz]
            · by_cases hzx : z < x
              · simp [hxz, hzx] at hbc
              · simp only [if_neg hxz, if_neg hzx] at hbc ⊢
                exact ih ys zs hab hbc

/-! ### Claim C2 -/

/-- C2: a failed `reload` — in particular `NotFound` for a missing corpus
root — leaves both previously published indexes unchanged; no partial reload
is ever committed. -/
theorem reload_failure_preserves_state (validate : SkillMeta → List String)
    (c : Corpus) (st : IndexerState) :
    (reload validate Corpus.absent st).1 =
      .error (.NotFound "Skills directory not found") ∧
    (reload validate Corpus.absent st).2 = st ∧
    (∀ e, (reload validate c st).1 = .error e → (reload validate c st).2 = st) := by
  refine ⟨rfl, rfl, ?_⟩
  intro e he
  cases c with
  | absent => rfl
  | unreadable => rfl
  | ok entries => simp [reload, build_skill_index, build_content_index] at he

/-- Witness for C2 at a concrete unreadable corpus root. -/
theorem reload_failure_preserves_state_witness :
    (reload noValidation Corpus.unreadable emptyState).2 = emptyState :=
  (reload_failure_preserves_state noValidation Corpus.unreadable emptyState).2.2
    (.ReadError "Failed to read skills directory") rfl

/-! ### Claim C8 -/

/-- C8: the search result limit defaults to 10 when the caller does not
supply one, and a caller-supplied limit of zero is treated as the default
rather than producing zero results. -/
theorem search_limit_defaults (s : String) (n : Nat) :
    search_options ⟨s, none⟩ = ⟨10⟩ ∧
    search_options ⟨s, some 0⟩ = ⟨10⟩ ∧
    (n ≠ 0 → search_options ⟨s, some n⟩ = ⟨n⟩) := by
  refine ⟨rfl, rfl, ?_⟩
  intro hn
  simp [search_options, parsedLimit, SearchOptions.with_limit, hn]

/-- Witness for C8 at a concrete query and limit. -/
theorem search_limit_defaults_witness :
    search_options ⟨"validate", some 5⟩ = ⟨5⟩ :=
  (search_limit_defaults "validate" 5).2.2 (by decide)

/-! ### Claim C9 -/

/-- C9: the content-index build always succeeds, so `reload` never fails on
a corpus whose root exists and is readable; the only reload errors are
`NotFound` (missing root) and `ReadError` (unreadable root), both from the
metadata scan. -/
theorem reload_errors_only_from_metadata_scan (validate : SkillMeta → List String)
    (c : Corpus) (es : List RootEntry) (idx : SkillIndex) (st : IndexerState) :
    (build_content_index es idx).isOk = true ∧
    (reload validate (Corpus.ok es) st).1 = .ok () ∧
    (∀ e, (reload validate c st).1 = .error e →
      (c = Corpus.absent ∧ e = .NotFound "Skills directory not found") ∨
      (c = Corpus.unreadable ∧ e = .ReadError "Failed to read skills directory")) := by
  refine ⟨rfl, rfl, ?_⟩
  intro e he
  cases c with
  | absent =>
      left
      refine ⟨rfl, ?_⟩
      simpa [reload, build_skill_index] using he.symm
  | unreadable =>
      right
      refine ⟨rfl, ?_⟩
      simpa [reload, build_skill_index] using he.symm
  | ok entries => simp [reload, build_skill_index, build_content_index] at he

/-- Witness for C9 at a concrete missing corpus root. -/
theorem reload_errors_only_from_metadata_scan_witness :
    (Corpus.absent = Corpus.absent ∧
      IndexError.NotFound "Skills directory not found" =
        IndexError.NotFound "Skills directory not found") ∨
    (Corpus.absent = Corpus.unreadable ∧
      IndexError.NotFound "Skills directory not found" =
        IndexError.ReadError "Failed to read skills directory") :=
  (reload_errors_only_from_metadata_scan noValidation Corpus.absent [] ⟨[], []⟩
    emptyState).2.2 (.NotFound "Skills directory not found") rfl

/-! ### Structural lemmas about the metadata scan loop -/

/-- The skills accumulated by the scan loop do not depend on the errors
accumulated so far. -/
theorem scan_skills_indep (validate : SkillMeta → List String) (l : List RootEntry) :
    ∀ (S : List SkillMeta) (E E' : List String),
      (List.foldl (scanStep validate) (S, E) l).1 =
      (List.foldl (scanStep validate) (S, E') l).1 := by
  induction l with
  | nil => intro S E E'; rfl
  | cons e l ih =>
    intro S E E'
    have h1 : (scanStep validate (S, E) e).1 = (scanStep validate (S, E') e).1 := by
      cases e with
      | file _ => rfl
      | dir d =>
        obtain ⟨dn, dm, df, dr⟩ := d
        simp only [scanStep]
        split
        · rfl
        · cases dm <;> rfl
    have h2 := ih (scanStep validate (S, E) e).1
      (scanStep validate (S, E) e).2 (scanStep validate (S, E') e).2
    simp only [List.foldl_cons]
    rw [show List.foldl (scanStep validate) (scanStep validate (S, E) e) l =
          List.foldl (scanStep validate)
            ((scanStep validate (S, E) e).1, (scanStep validate (S, E) e).2) l from rfl,
        show List.foldl (scanStep validate) (scanStep validate (S, E') e) l =
          List.foldl (scanStep validate)
            ((scanStep validate (S, E') e).1, (scanStep validate (S, E') e).2) l from rfl]
    rw [h2, h1]

/-- Each scan step, and hence the scan loop, only appends to both
accumulators. -/
theorem scan_extend (validate : SkillMeta → List String) (l : List RootEntry) :
    ∀ acc : List SkillMeta × List String, ∃ s t,
      List.foldl (scanStep validate) acc l = (acc.1 ++ s, acc.2 ++ t) := by
  induction l with
  | nil => intro acc; exact ⟨[], [], by simp⟩
  | cons e l ih =>
    intro acc
    obtain ⟨s1, t1, h1⟩ : ∃ s1 t1, scanStep validate acc e = (acc.1 ++ s1, acc.2 ++ t1) := by
      cases e with
      | file _ => exact ⟨[], [], by simp [scanStep]⟩
      | dir d =>
        obtain ⟨dn, dm, df, dr⟩ := d
        simp only [scanStep]
        split
        · exact ⟨[], [], by simp⟩
        · cases dm with
          | absent => exact ⟨[], [dn ++ ": Missing _meta.json"], by simp⟩
          | unreadable =>
              exact ⟨[], [dn ++ ": Read error: Failed to read _meta.json"], by simp⟩
          | unparsable =>
              exact ⟨[], [dn ++ ": Parse error: Failed to parse _meta.json"], by simp⟩
          | parsed m =>
              exact ⟨[m], (validate m).map (fun err => dn ++ ": " ++ err), by simp⟩
    obtain ⟨s2, t2, h2⟩ := ih (acc.1 ++ s1, acc.2 ++ t1)
    refine ⟨s1 ++ s2, t1 ++ t2, ?_⟩
    rw [List.foldl_cons, h1, h2]
    simp [List.append_assoc]

/-! ### Claim C5 -/

/-- C5: a candidate directory whose `_meta.json` is absent contributes
exactly one error (a message starting with that directory's name) and no
skill, and the scan continues over the remaining candidates. -/
theorem scan_missing_meta (validate : SkillMeta → List String) (d : SkillDir)
    (pre post : List RootEntry)
    (hhid : (startsWithChar d.name '.' || startsWithChar d.name '_') = false)
    (hmeta : d.metaFile = .absent) :
    scanEntries validate (pre ++ RootEntry.dir d :: post) =
      List.foldl (scanStep validate)
        ((scanEntries validate pre).1,
         (scanEntries validate pre).2 ++ [d.name ++ ": Missing _meta.json"]) post ∧
    (scanEntries validate (pre ++ RootEntry.dir d :: post)).1 =
      (scanEntries validate (pre ++ post)).1 ∧
    (∃ rest, d.name ++ ": Missing _meta.json" = d.name ++ rest) := by
  have h1 : scanEntries validate (pre ++ RootEntry.dir d :: post) =
      List.foldl (scanStep validate)
        ((scanEntries validate pre).1,
         (scanEntries validate pre).2 ++ [d.name ++ ": Missing _meta.json"]) post := by
    unfold scanEntries
    rw [List.foldl_append, List.foldl_cons]
    simp only [scanStep, hhid, hmeta, Bool.false_eq_true, if_false]
  refine ⟨h1, ?_, ⟨": Missing _meta.json", rfl⟩⟩
  rw [h1]
  have h2 := scan_skills_indep validate post (scanEntries validate pre).1
    ((scanEntries validate pre).2 ++ [d.name ++ ": Missing _meta.json"])
    (scanEntries validate pre).2
  rw [h2]
  unfold scanEntries
  rw [List.foldl_append]

/-- A directory with `_meta.json` absent, used as the C5 witness fixture. -/
def dMissing : SkillDir := ⟨"forms", .absent, [], none⟩

/-- Witness for C5: the concrete one-directory corpus yields exactly the one
"missing metadata" error and no skills. -/
theorem scan_missing_meta_witness :
    scanEntries noValidation [RootEntry.dir dMissing] =
      ([], ["forms: Missing _meta.json"]) :=
  (scan_missing_meta noValidation dMissing [] [] (by decide) rfl).1

/-! ### Claim C6 -/

/-- C6: an entry whose metadata parses but fails semantic validation has the
validation messages appended to `errors`, yet its descriptor is still part of
the built index's skills (validation is advisory, not exclusionary). -/
theorem scan_validation_advisory (validate : SkillMeta → List String)
    (d : SkillDir) (m : SkillMeta) (pre post : List RootEntry)
    (hhid : (startsWithChar d.name '.' || startsWithChar d.name '_') = false)
    (hmeta : d.metaFile = .parsed m) :
    ∃ idx, build_skill_index validate (Corpus.ok (pre ++ RootEntry.dir d :: post)) =
        .ok idx ∧
      m ∈ idx.skills ∧
      ∀ err ∈ validate m, (d.name ++ ": " ++ err) ∈ idx.errors := by
  have h1 : scanEntries validate (pre ++ RootEntry.dir d :: post) =
      List.foldl (scanStep validate)
        ((scanEntries validate pre).1 ++ [m],
         (scanEntries validate pre).2 ++
           (validate m).map (fun err => d.name ++ ": " ++ err)) post := by
    unfold scanEntries
    rw [List.foldl_append, List.foldl_cons]
    simp only [scanStep, hhid, hmeta, Bool.false_eq_true, if_false]
  obtain ⟨s, t, hst⟩ := scan_extend validate post
    ((scanEntries validate pre).1 ++ [m],
     (scanEntries validate pre).2 ++
       (validate m).map (fun err => d.name ++ ": " ++ err))
  have hSE : scanEntries validate (pre ++ RootEntry.dir d :: post) =
      (((scanEntries validate pre).1 ++ [m]) ++ s,
       ((scanEntries validate pre).2 ++
         (validate m).map (fun err => d.name ++ ": " ++ err)) ++ t) := by
    rw [h1, hst]
  refine ⟨⟨(scanEntries validate (pre ++ RootEntry.dir d :: post)).1.mergeSort
      (fun a b => nameLe a.name b.name),
    (scanEntries validate (pre ++ RootEntry.dir d :: post)).2⟩, rfl, ?_, ?_⟩
  · rw [(List.mergeSort_perm _ _).mem_iff, hSE]
    simp
  · intro err herr
    rw [hSE]
    simp only [List.mem_append, List.mem_map]
    exact Or.inl (Or.inr ⟨err, herr, rfl⟩)

/-- A validator that rejects every descriptor, used as the C6 witness
fixture. -/
def rejectValidation : SkillMeta → List String := fun _ => ["description too short"]

/-- A directory whose metadata parses, used as the C6 witness fixture. -/
def dParsed : SkillDir := ⟨"forms", .parsed (mkMeta "forms" "x"), [], none⟩

/-- Witness for C6: with a rejecting validator, the concrete one-directory
corpus still lists the descriptor while carrying its validation error. -/
theorem scan_validation_advisory_witness :
    ∃ idx, build_skill_index rejectValidation (Corpus.ok [RootEntry.dir dParsed]) =
        .ok idx ∧
      mkMeta "forms" "x" ∈ idx.skills ∧
      ∀ err ∈ rejectValidation (mkMeta "forms" "x"),
        ("forms" ++ ": " ++ err) ∈ idx.errors :=
  scan_validation_advisory rejectValidation dParsed (mkMeta "forms" "x") [] []
    (by decide) rfl

/-! ### Claim C3 -/

/-- A directory `a` whose metadata record declares the name `x`. -/
def dDupA : SkillDir := ⟨"a", .parsed (mkMeta "x" "first"), [], none⟩

/-- A directory `b` whose metadata record also declares the name `x`. -/
def dDupB : SkillDir := ⟨"b", .parsed (mkMeta "x" "second"), [], none⟩

/-- A corpus with two distinct directories declaring the same skill name. -/
def dupEntries : List RootEntry := [.dir dDupA, .dir dDupB]

/-- C3 counterexample: a successful reload of a corpus whose two directories
declare the same metadata name lists two `SkillMeta` entries with the same
name, refuting the no-duplicates half of the claim. -/
theorem reload_list_duplicates_cex :
    (reload noValidation (Corpus.ok dupEntries) emptyState).1 = .ok () ∧
    ¬ List.Pairwise
        (fun a b : SkillMeta => nameLe a.name b.name = true ∧ a.name ≠ b.name)
        ((reload noValidation (Corpus.ok dupEntries) emptyState).2.skill_index.skills) := by
  constructor
  · rfl
  · decide

/-- C3 (amended): after a successful reload the listed skills are sorted by
name ascending (byte/lexicographic); strict sortedness — hence the absence of
duplicate names — additionally holds whenever the listed names are pairwise
distinct, which a corpus may violate only when two directories' metadata
records declare the same name. -/
theorem reload_list_sorted (validate : SkillMeta → List String)
    (es : List RootEntry) (st : IndexerState) :
    List.Pairwise (fun a b : SkillMeta => nameLe a.name b.name = true)
      ((reload validate (Corpus.ok es) st).2.skill_index.skills) ∧
    ((((reload validate (Corpus.ok es) st).2.skill_index.skills).map
        (fun m => m.name)).Nodup →
      List.Pairwise
        (fun a b : SkillMeta => nameLe a.name b.name = true ∧ a.name ≠ b.name)
        ((reload validate (Corpus.ok es) st).2.skill_index.skills)) := by
  have htrans : ∀ a b c : SkillMeta, nameLe a.name b.name = true →
      nameLe b.name c.name = true → nameLe a.name c.name = true :=
    fun a b c h1 h2 => lexLe_trans a.name.data b.name.data c.name.data h1 h2
  have htotal : ∀ a b : SkillMeta,
      (nameLe a.name b.name || nameLe b.name a.name) = true :=
    fun a b => lexLe_total a.name.data b.name.data
  have hsorted := @List.sorted_mergeSort SkillMeta
    (fun a b => nameLe a.name b.name) htrans htotal (scanEntries validate es).1
  have hskills : (reload validate (Corpus.ok es) st).2.skill_index.skills =
      (scanEntries validate es).1.mergeSort (fun a b => nameLe a.name b.name) := rfl
  rw [hskills]
  refine ⟨hsorted, ?_⟩
  intro hnd
  have hne : List.Pairwise (fun a b : SkillMeta => a.name ≠ b.name)
      ((scanEntries validate es).1.mergeSort (fun a b => nameLe a.name b.name)) :=
    (List.pairwise_map).mp hnd
  exact hsorted.and hne

/-- A directory `b` declaring metadata name `b`. -/
def dNameB : SkillDir := ⟨"b", .parsed (mkMeta "b" "routing"), [], none⟩

/-- A directory `a` declaring metadata name `a`. -/
def dNameA : SkillDir := ⟨"a", .parsed (mkMeta "a" "forms"), [], none⟩

/-- A two-directory corpus with distinct metadata names, listed unsorted. -/
def twoEntries : List RootEntry := [.dir dNameB, .dir dNameA]

/-- Witness for C3 (amended) at a concrete two-skill corpus: the reloaded
index is strictly sorted by name. -/
theorem reload_list_sorted_witness :
    List.Pairwise
      (fun a b : SkillMeta => nameLe a.name b.name = true ∧ a.name ≠ b.name)
      ((reload noValidation (Corpus.ok twoEntries) emptyState).2.skill_index.skills) :=
  (reload_list_sorted noValidation twoEntries emptyState).2 (by decide)


/-! ### Claim C4 -/

/-- The file behind an index entry existed and was readable at scan time:
either the regular file `skills_dir/<name>/<path>` read successfully, or the
entry came from a readable file yielded by the walk of the `references`
directory. -/
def FileReadable (entries : List RootEntry) (name path content : String) : Prop :=
  pathState entries name path = .ok content ∨
  ∃ d ws w, findDir entries name = some d ∧ d.refs = some ws ∧ w ∈ ws ∧
    w.isFile = true ∧ w.relPath = path ∧ w.content = some content

/-- Unfolding one step of the `index_directory` walk loop. -/
theorem index_directory_cons (acc : List ContentIndexEntry) (domain : String)
    (w : WalkEntry) (ws : List WalkEntry) :
    index_directory acc domain (w :: ws) =
      index_directory
        (if !w.isFile then acc
         else if w.ext != "md" && w.ext != "markdown" then acc
         else match w.content with
           | some c => acc ++ [⟨domain, none, w.relPath, c⟩]
           | none => acc) domain ws := rfl

/-- Every entry produced by `index_directory` beyond its accumulator comes
from a readable regular file in the walked listing, owned by `domain`, with
no sub-skill and the walk-relative path. -/
theorem index_directory_mem (domain : String) (ws : List WalkEntry) :
    ∀ (acc : List ContentIndexEntry) (e : ContentIndexEntry),
      e ∈ index_directory acc domain ws →
      e ∈ acc ∨ ∃ w c, w ∈ ws ∧ w.isFile = true ∧ w.content = some c ∧
        e = ⟨domain, none, w.relPath, c⟩ := by
  induction ws with
  | nil => intro acc e he; exact Or.inl he
  | cons w ws ih =>
    intro acc e he
    rw [index_directory_cons] at he
    rcases ih _ e he with h | ⟨w', c', hw', hf', hc', he'⟩
    · have hstep : e ∈ acc ∨ ∃ c, (w.isFile = true ∧ w.content = some c ∧
          e = ⟨domain, none, w.relPath, c⟩) := by
        by_cases hf : w.isFile = true
        · simp only [hf, Bool.not_true, Bool.false_eq_true, if_false] at h
          by_cases hx : (w.ext != "md" && w.ext != "markdown") = true
          · rw [if_pos hx] at h
            exact Or.inl h
          · rw [if_neg hx] at h
            cases hcw : w.content with
            | some c =>
                simp only [hcw] at h
                rcases List.mem_append.mp h with h' | h'
                · exact Or.inl h'
                · have heq : e = ⟨domain, none, w.relPath, c⟩ :=
                    List.mem_singleton.mp h'
                  exact Or.inr ⟨c, hf, rfl, heq⟩
            | none =>
                simp only [hcw] at h
                exact Or.inl h
        · have hf' : w.isFile = false := by
            revert hf; cases w.isFile <;> simp
          simp only [hf', Bool.not_false, if_true] at h
          exact Or.inl h
      rcases hstep with h' | ⟨c, hf, hc, heq⟩
      · exact Or.inl h'
      · exact Or.inr ⟨w, c, List.mem_cons_self w ws, hf, hc, heq⟩
    · exact Or.inr ⟨w', c', List.mem_cons_of_mem w hw', hf', hc', he'⟩

/-- Every entry produced by the sub-skill loop beyond its accumulator comes
from a declared sub-skill whose referenced file read successfully. -/
theorem sub_skills_fold_mem (es : List RootEntry) (name : String)
    (subs : List SubSkillMeta) :
    ∀ (acc : List ContentIndexEntry) (e : ContentIndexEntry),
      e ∈ subs.foldl (fun a sub =>
          match pathState es name sub.file with
          | .ok c => a ++ [⟨name, some sub.name, sub.file, c⟩]
          | _ => a) acc →
      e ∈ acc ∨ ∃ sub c, sub ∈ subs ∧ pathState es name sub.file = .ok c ∧
        e = ⟨name, some sub.name, sub.file, c⟩ := by
  induction subs with
  | nil => intro acc e he; exact Or.inl he
  | cons sub subs ih =>
    intro acc e he
    rw [List.foldl_cons] at he
    rcases ih _ e he with h | ⟨sub', c', hs', hp', he'⟩
    · have hstep : e ∈ acc ∨ ∃ c, (pathState es name sub.file = .ok c ∧
          e = ⟨name, some sub.name, sub.file, c⟩) := by
        cases hps : pathState es name sub.file with
        | ok c =>
            simp only [hps] at h
            rcases List.mem_append.mp h with h' | h'
            · exact Or.inl h'
            · have heq : e = ⟨name, some sub.name, sub.file, c⟩ :=
                List.mem_singleton.mp h'
              exact Or.inr ⟨c, rfl, heq⟩
        | absent => simp only [hps] at h; exact Or.inl h
        | unreadable => simp only [hps] at h; exact Or.inl h
      rcases hstep with h' | ⟨c, hp, heq⟩
      · exact Or.inl h'
      · exact Or.inr ⟨sub, c, List.mem_cons_self sub subs, hp, heq⟩
    · exact Or.inr ⟨sub', c', List.mem_cons_of_mem sub hs', hp', he'⟩

/-- Entries contributed by the `SKILL.md` block are readable main documents. -/
theorem indexMainStep_mem (es : List RootEntry) (skill : SkillMeta)
    (acc : List ContentIndexEntry) (e : ContentIndexEntry)
    (he : e ∈ indexMainStep es acc skill) :
    e ∈ acc ∨ (e.skill_name = skill.name ∧
      FileReadable es e.skill_name e.path e.content) := by
  unfold indexMainStep at he
  cases hps : pathState es skill.name "SKILL.md" with
  | ok c =>
      simp only [hps] at he
      rcases List.mem_append.mp he with h | h
      · exact Or.inl h
      · have heq : e = ⟨skill.name, none, "SKILL.md", c⟩ := List.mem_singleton.mp h
        subst heq
        exact Or.inr ⟨rfl, Or.inl hps⟩
  | absent => simp only [hps] at he; exact Or.inl he
  | unreadable => simp only [hps] at he; exact Or.inl he

/-- Entries contributed by the sub-skill block are readable sub-skill files. -/
theorem indexSubsStep_mem (es : List RootEntry) (skill : SkillMeta)
    (acc : List ContentIndexEntry) (e : ContentIndexEntry)
    (he : e ∈ indexSubsStep es acc skill) :
    e ∈ acc ∨ (e.skill_name = skill.name ∧
      FileReadable es e.skill_name e.path e.content) := by
  unfold indexSubsStep at he
  cases hss : skill.sub_skills with
  | some subs =>
      simp only [hss] at he
      rcases sub_skills_fold_mem es skill.name subs acc e he with h | ⟨sub, c, _, hp, heq⟩
      · exact Or.inl h
      · subst heq
        exact Or.inr ⟨rfl, Or.inl hp⟩
  | none => simp only [hss] at he; exact Or.inl he

/-- Entries contributed by the `references` block are readable walked files. -/
theorem indexRefsStep_mem (es : List RootEntry) (skill : SkillMeta)
    (acc : List ContentIndexEntry) (e : ContentIndexEntry)
    (he : e ∈ indexRefsStep es acc skill) :
    e ∈ acc ∨ (e.skill_name = skill.name ∧
      FileReadable es e.skill_name e.path e.content) := by
  unfold indexRefsStep at he
  cases hfd : findDir es skill.name with
  | some d =>
      simp only [hfd] at he
      cases hrefs : d.refs with
      | some ws =>
          simp only [hrefs] at he
          rcases index_directory_mem skill.name ws acc e he with h | ⟨w, c, hw, hf, hc, heq⟩
          · exact Or.inl h
          · subst heq
            exact Or.inr ⟨rfl, Or.inr ⟨d, ws, w, hfd, hrefs, hw, hf, rfl, hc⟩⟩
      | none => simp only [hrefs] at he; exact Or.inl he
  | none => simp only [hfd] at he; exact Or.inl he

/-- Every entry produced by the per-skill body of `build_content_index`
beyond its accumulator is owned by that skill and backed by a readable
file. -/
theorem indexSkillStep_mem (es : List RootEntry) (skill : SkillMeta)
    (acc : List ContentIndexEntry) (e : ContentIndexEntry)
    (he : e ∈ indexSkillStep es acc skill) :
    e ∈ acc ∨ (e.skill_name = skill.name ∧
      FileReadable es e.skill_name e.path e.content) := by
  unfold indexSkillStep at he
  rcases indexRefsStep_mem es skill _ e he with h2 | hgood
  · rcases indexSubsStep_mem es skill _ e h2 with h1 | hgood
    · rcases indexMainStep_mem es skill acc e h1 with h0 | hgood
      · exact Or.inl h0
      · exact Or.inr hgood
    · exact Or.inr hgood
  · exact Or.inr hgood

/-- Every entry produced by the skill loop of `build_content_index` beyond
its accumulator belongs to a listed skill and is backed by a readable file. -/
theorem content_fold_mem (es : List RootEntry) (skills : List SkillMeta) :
    ∀ (acc : List ContentIndexEntry) (e : ContentIndexEntry),
      e ∈ skills.foldl (indexSkillStep es) acc →
      e ∈ acc ∨ ∃ m, m ∈ skills ∧ e.skill_name = m.name ∧
        FileReadable es e.skill_name e.path e.content := by
  induction skills with
  | nil => intro acc e he; exact Or.inl he
  | cons m skills ih =>
    intro acc e he
    rw [List.foldl_cons] at he
    rcases ih _ e he with h | ⟨m', hm', hn', hr'⟩
    · rcases indexSkillStep_mem es m acc e h with h' | ⟨hn, hr⟩
      · exact Or.inl h'
      · exact Or.inr ⟨m, List.mem_cons_self m skills, hn, hr⟩
    · exact Or.inr ⟨m', List.mem_cons_of_mem m hm', hn', hr'⟩

/-- C4: after a successful reload, every content-index entry's owning skill
name is the name of a descriptor in the same reload's metadata index, and
the entry is backed by a file that existed and was readable at scan time. -/
theorem content_index_cross_consistent (validate : SkillMeta → List String)
    (es : List RootEntry) (st : IndexerState) (e : ContentIndexEntry)
    (he : e ∈ (reload validate (Corpus.ok es) st).2.content_index.entries) :
    (∃ m ∈ (reload validate (Corpus.ok es) st).2.skill_index.skills,
      e.skill_name = m.name) ∧
    FileReadable es e.skill_name e.path e.content := by
  have hentries : (reload validate (Corpus.ok es) st).2.content_index.entries =
      ((reload validate (Corpus.ok es) st).2.skill_index.skills).foldl
        (indexSkillStep es) [] := rfl
  rw [hentries] at he
  rcases content_fold_mem es _ [] e he with h | ⟨m, hm, hn, hr⟩
  · cases h
  · exact ⟨⟨m, hm, hn⟩, hr⟩

/-- A well-formed skill directory with a readable `SKILL.md`. -/
def dForms : SkillDir :=
  ⟨"forms", .parsed (mkMeta "forms" "desc"), [("SKILL.md", .ok "hello")], none⟩

/-- The one-skill corpus backing several witnesses. -/
def formsEntries : List RootEntry := [.dir dForms]

/-- Witness for C4 at a concrete one-skill corpus and its `SKILL.md` entry. -/
theorem content_index_cross_consistent_witness :
    (∃ m ∈ (reload noValidation (Corpus.ok formsEntries) emptyState).2.skill_index.skills,
      (ContentIndexEntry.mk "forms" none "SKILL.md" "hello").skill_name = m.name) ∧
    FileReadable formsEntries "forms" "SKILL.md" "hello" :=
  content_index_cross_consistent noValidation formsEntries emptyState
    ⟨"forms", none, "SKILL.md", "hello"⟩ (by decide)

/-! ### Claim C7 -/

/-- Declarative description (following the spec's wording for the references
walk, §4.3, plus the readability guard) of one walked entry's contribution:
a readable regular file with a recognized markup extension becomes one entry
with no sub-skill and the walk-relative path; everything else contributes
nothing. -/
def refFileEntry (domain : String) (w : WalkEntry) : Option ContentIndexEntry :=
  if w.isFile = true ∧ (w.ext = "md" ∨ w.ext = "markdown") then
    w.content.map (fun c => ⟨domain, none, w.relPath, c⟩)
  else none

/-- C7 (amended): the references walk inserts exactly one entry per readable
regular file whose extension is `md` or `markdown` — sub-skill `none`, path
relative to the skill directory — and nothing for other extensions,
non-files, or files whose read fails. -/
theorem index_directory_characterization (domain : String) (ws : List WalkEntry) :
    ∀ acc, index_directory acc domain ws =
      acc ++ ws.filterMap (refFileEntry domain) := by
  induction ws with
  | nil => intro acc; simp [index_directory]
  | cons w ws ih =>
    intro acc
    rw [index_directory_cons, List.filterMap_cons]
    by_cases hf : w.isFile = true
    · by_cases hm : w.ext = "md" ∨ w.ext = "markdown"
      · have hx : (w.ext != "md" && w.ext != "markdown") = false := by
          rcases hm with h | h <;> simp [h]
        cases hcw : w.content with
        | some c =>
            simp [hf, hx, hcw, refFileEntry, hm, ih, List.append_assoc]
        | none => simp [hf, hx, hcw, refFileEntry, hm, ih]
      · have hx : (w.ext != "md" && w.ext != "markdown") = true := by
          push_neg at hm
          simp [bne, hm.1, hm.2]
        simp [hf, hx, refFileEntry, hm, ih]
    · have hf' : w.isFile = false := by revert hf; cases w.isFile <;> simp
      simp [hf', refFileEntry, ih]

/-- C7 counterexample: a regular `md` file in the references walk whose read
fails yields no content-index entry, refuting the claim that every file with
a recognized markup extension yields one. -/
theorem index_references_unreadable_cex :
    (WalkEntry.mk "references/a.md" true "md" none).isFile = true ∧
    (WalkEntry.mk "references/a.md" true "md" none).ext = "md" ∧
    ¬ ∃ c, ContentIndexEntry.mk "s" none "references/a.md" c ∈
        index_directory [] "s" [⟨"references/a.md", true, "md", none⟩] := by
  refine ⟨rfl, rfl, ?_⟩
  rintro ⟨c, hc⟩
  simp [index_directory] at hc

/-! ### Claim C10 -/

/-- A directory whose metadata record parses contributes exactly the parsed
descriptor (with the metadata's own `name` field) to the scanned skills. -/
theorem scan_mem_parsed (validate : SkillMeta → List String) (es : List RootEntry)
    (d : SkillDir) (m : SkillMeta)
    (hmem : RootEntry.dir d ∈ es)
    (hhid : (startsWithChar d.name '.' || startsWithChar d.name '_') = false)
    (hmeta : d.metaFile = .parsed m) :
    m ∈ (scanEntries validate es).1 := by
  obtain ⟨pre, post, rfl⟩ := List.append_of_mem hmem
  unfold scanEntries
  rw [List.foldl_append, List.foldl_cons]
  have hstep : scanStep validate (List.foldl (scanStep validate) ([], []) pre)
      (RootEntry.dir d) =
      ((List.foldl (scanStep validate) ([], []) pre).1 ++ [m],
       (List.foldl (scanStep validate) ([], []) pre).2 ++
         (validate m).map (fun err => d.name ++ ": " ++ err)) := by
    simp only [scanStep, hhid, hmeta, Bool.false_eq_true, if_false]
  rw [hstep]
  obtain ⟨s, t, hst⟩ := scan_extend validate post
    ((List.foldl (scanStep validate) ([], []) pre).1 ++ [m],
     (List.foldl (scanStep validate) ([], []) pre).2 ++
       (validate m).map (fun err => d.name ++ ": " ++ err))
  rw [hst]
  simp

/-- C10 (amended): the stored descriptor carries the name parsed from the
metadata record, not the containing directory's name, so the skill is listed
under the metadata name; `read_skill_content` on that listed name resolves
the directory by the listed name, so it returns `NotFound` whenever no
directory named after the metadata name contains a `SKILL.md` — though when
a sibling directory does bear that name with a readable `SKILL.md`, the read
succeeds against that other directory instead (see the counterexample). -/
theorem meta_name_listed_read_not_found (validate : SkillMeta → List String)
    (es : List RootEntry) (st : IndexerState) (d : SkillDir) (m : SkillMeta)
    (hmem : RootEntry.dir d ∈ es)
    (hhid : (startsWithChar d.name '.' || startsWithChar d.name '_') = false)
    (hmeta : d.metaFile = .parsed m)
    (_hname : m.name ≠ d.name)
    (habs : pathState es m.name "SKILL.md" = .absent) :
    m ∈ (reload validate (Corpus.ok es) st).2.skill_index.skills ∧
    read_skill_content es (reload validate (Corpus.ok es) st).2 m.name =
      .error (.NotFound ("SKILL.md not found for " ++ m.name)) := by
  constructor
  · have h1 := scan_mem_parsed validate es d m hmem hhid hmeta
    have hsk : (reload validate (Corpus.ok es) st).2.skill_index.skills =
        (scanEntries validate es).1.mergeSort (fun a b => nameLe a.name b.name) := rfl
    rw [hsk, (List.mergeSort_perm _ _).mem_iff]
    exact h1
  · simp only [read_skill_content, habs]

/-- A directory `a` whose metadata record declares the name `b` while a
readable `SKILL.md` sits in `a` itself. -/
def dMislabeled : SkillDir :=
  ⟨"a", .parsed (mkMeta "b" "desc"), [("SKILL.md", .ok "A content")], none⟩

/-- A sibling directory actually named `b` (no metadata, but a readable
`SKILL.md`). -/
def dShadow : SkillDir := ⟨"b", .absent, [("SKILL.md", .ok "B content")], none⟩

/-- A corpus where a mislabeled entry's metadata name collides with a
sibling directory's name. -/
def collideEntries : List RootEntry := [.dir dMislabeled, .dir dShadow]

/-- C10 counterexample: with directory `a` declaring metadata name `b` and a
sibling directory `b` holding a readable `SKILL.md`, reading the listed name
`b` succeeds (serving the sibling's content) instead of returning `NotFound`
as the claim demands for every mismatched entry. -/
theorem meta_name_mismatch_read_cex :
    RootEntry.dir dMislabeled ∈ collideEntries ∧
    dMislabeled.metaFile = .parsed (mkMeta "b" "desc") ∧
    (mkMeta "b" "desc").name ≠ dMislabeled.name ∧
    read_skill_content collideEntries
        (reload noValidation (Corpus.ok collideEntries) emptyState).2
        (mkMeta "b" "desc").name =
      .ok ⟨"b", "B content", [], false⟩ := by
  refine ⟨by decide, rfl, by decide, by rfl⟩

/-- A corpus consisting only of the mislabeled directory `a` (metadata name
`b`, no directory named `b`). -/
def mislabeledOnly : List RootEntry := [.dir dMislabeled]

/-- Witness for C10 (amended) at the one-directory mislabeled corpus. -/
theorem meta_name_listed_read_not_found_witness :
    mkMeta "b" "desc" ∈
      (reload noValidation (Corpus.ok mislabeledOnly) emptyState).2.skill_index.skills ∧
    read_skill_content mislabeledOnly
        (reload noValidation (Corpus.ok mislabeledOnly) emptyState).2 "b" =
      .error (.NotFound ("SKILL.md not found for " ++ "b")) :=
  meta_name_listed_read_not_found noValidation mislabeledOnly emptyState
    dMislabeled (mkMeta "b" "desc") (by decide) (by decide) rfl (by decide) (by decide)

/-! ### Claim C1 -/

/-- The per-component invariant along any interleaving of lock-protected
accesses: the store holds, and the reader has seen, either the old or the
new version of each index — never a torn value. -/
def SwapInv (old next : IndexerState) (s : RunState) : Prop :=
  (s.store.skill_index = old.skill_index ∨ s.store.skill_index = next.skill_index) ∧
  (s.store.content_index = old.content_index ∨
    s.store.content_index = next.content_index) ∧
  (s.view.seenSkill = none ∨ s.view.seenSkill = some old.skill_index ∨
    s.view.seenSkill = some next.skill_index) ∧
  (s.view.seenContent = none ∨ s.view.seenContent = some old.content_index ∨
    s.view.seenContent = some next.content_index)

/-- Every single event preserves the per-component invariant. -/
theorem stepEvent_inv (old next : IndexerState) (s : RunState) (e : RWEvent)
    (h : SwapInv old next s) : SwapInv old next (stepEvent next s e) := by
  obtain ⟨h1, h2, h3, h4⟩ := h
  cases e with
  | writeSkill => exact ⟨Or.inr rfl, h2, h3, h4⟩
  | writeContent => exact ⟨h1, Or.inr rfl, h3, h4⟩
  | readSkill =>
      refine ⟨h1, h2, ?_, h4⟩
      rcases h1 with h | h
      · exact Or.inr (Or.inl (by simp [stepEvent, h]))
      · exact Or.inr (Or.inr (by simp [stepEvent, h]))
  | readContent =>
      refine ⟨h1, h2, h3, ?_⟩
      rcases h2 with h | h
      · exact Or.inr (Or.inl (by simp [stepEvent, h]))
      · exact Or.inr (Or.inr (by simp [stepEvent, h]))

/-- The per-component invariant holds after any schedule. -/
theorem runSchedule_inv (old next : IndexerState) (sched : List RWEvent) :
    SwapInv old next (runSchedule old next sched) := by
  have hrun : ∀ s : RunState, SwapInv old next s →
      SwapInv old next (sched.foldl (stepEvent next) s) := by
    induction sched with
    | nil => intro s h; exact h
    | cons e sched ih =>
        intro s h
        rw [List.foldl_cons]
        exact ih _ (stepEvent_inv old next s e h)
  exact hrun ⟨old, ⟨none, none⟩⟩ ⟨Or.inl rfl, Or.inl rfl, Or.inl rfl, Or.inl rfl⟩

/-- C1 (amended): `reload` installs the two snapshots with two separate
lock-protected writes (metadata first), so every read returns the old or the
new version of that one index — never a torn value — and a reader whose two
reads both precede or both follow the swap observes a consistent pair; but a
reader interleaved between the two writes observes the new metadata index
paired with the old content index. -/
theorem reload_swap_per_index (old next : IndexerState) (sched : List RWEvent) :
    SwapInv old next (runSchedule old next sched) ∧
    runSchedule old next [.readSkill, .readContent, .writeSkill, .writeContent] =
      ⟨⟨next.skill_index, next.content_index⟩,
        some old.skill_index, some old.content_index⟩ ∧
    runSchedule old next [.writeSkill, .writeContent, .readSkill, .readContent] =
      ⟨⟨next.skill_index, next.content_index⟩,
        some next.skill_index, some next.content_index⟩ ∧
    runSchedule old next [.writeSkill, .readSkill, .readContent, .writeContent] =
      ⟨⟨next.skill_index, next.content_index⟩,
        some next.skill_index, some old.content_index⟩ :=
  ⟨runSchedule_inv old next sched, rfl, rfl, rfl⟩

/-- A previously published snapshot pair. -/
def oldSnap : IndexerState :=
  ⟨⟨[mkMeta "old" "o"], []⟩, ⟨[⟨"old", none, "SKILL.md", "old text"⟩]⟩⟩

/-- A freshly built, observably different snapshot pair. -/
def newSnap : IndexerState :=
  ⟨⟨[mkMeta "new" "n"], []⟩, ⟨[⟨"new", none, "SKILL.md", "new text"⟩]⟩⟩

/-- C1 counterexample: the interleaving write-metadata, read-metadata,
read-content, write-content is a valid schedule of one reload racing one
reader, under which the reader observes the new metadata index paired with
the old content index of two observably different generations. -/
theorem reload_swap_not_atomic_cex :
    validSchedule [.writeSkill, .readSkill, .readContent, .writeContent] ∧
    MixedObservation oldSnap newSnap
      (runSchedule oldSnap newSnap
        [.writeSkill, .readSkill, .readContent, .writeContent]).view ∧
    oldSnap.skill_index ≠ newSnap.skill_index ∧
    oldSnap.content_index ≠ newSnap.content_index := by
  refine ⟨by decide, Or.inl ⟨rfl, rfl⟩, by decide, by decide⟩
